import Mathlib

/-!
Verification of the LyricMind retrieval subsystem.

This file is a shallow embedding of the Python sources of the repository
(src/lyricmind/cli.py, src/lyricmind/ingest/data_preparation.py,
src/lyricmind/generation/generation_integration.py, src/lyricmind/config.py)
together with theorems settling the specification claims about them.

Modelling conventions:
* Python strings are lists of Unicode code points (`Str`); Python `len` is
  `List.length` and Python substring containment (`in`) is `substrOf`.
* Python `sorted` is a stable sort; it is modelled by `List.insertionSort`,
  which is stable for the relations used here.
* Python dicts with string keys are association lists (`Metadata`) whose
  `setdefault` appends at the end, mirroring insertion order.
* `uuid4` chunk ids and logging are not modelled: no settled claim depends
  on them.
-/

/-- Python `str` as a list of code points. -/
abbrev Str := List Char

/-- Python whitespace predicate, restricted to the ASCII whitespace class
(the corpus and all inputs considered here are within this class). -/
def pyWS (c : Char) : Bool :=
  c = ' ' || c = '\t' || c = '\n' || c = '\r' || c = '\x0b' || c = '\x0c'

/-- Python `str.strip()`. -/
def stripStr (s : Str) : Str :=
  ((s.dropWhile pyWS).reverse.dropWhile pyWS).reverse

/-- Python substring containment: `substrOf n h` is the Python expression
`n in h` for strings. -/
def substrOf (n : Str) : Str → Bool
  | [] => n.isEmpty
  | c :: t => n.isPrefixOf (c :: t) || substrOf n t

/-- Deduplication keeping the first occurrence, with an accumulator of the
values already seen.  This is the order in which Python dict keys (and the
first-encounter order used throughout cli.py) arise. -/
def dedupFirstAux [DecidableEq α] (seen : List α) : List α → List α
  | [] => []
  | a :: t => if a ∈ seen then dedupFirstAux seen t else a :: dedupFirstAux (a :: seen) t

/-- Deduplication keeping the first occurrence. -/
def dedupFirst [DecidableEq α] (l : List α) : List α := dedupFirstAux [] l

theorem dedupFirstAux_sublist [DecidableEq α] (seen : List α) :
    ∀ l : List α, (dedupFirstAux seen l).Sublist l := by
  intro l
  induction l generalizing seen with
  | nil => simp [dedupFirstAux]
  | cons a t ih =>
    by_cases h : a ∈ seen
    · simpa [dedupFirstAux, h] using List.Sublist.cons a (ih seen)
    · simpa [dedupFirstAux, h] using List.Sublist.cons₂ a (ih (a :: seen))

theorem mem_dedupFirstAux [DecidableEq α] {seen : List α} {l : List α} {a : α} :
    a ∈ dedupFirstAux seen l ↔ a ∈ l ∧ a ∉ seen := by
  induction l generalizing seen with
  | nil => simp [dedupFirstAux]
  | cons b t ih =>
    by_cases h : b ∈ seen
    · rw [show dedupFirstAux seen (b :: t) = dedupFirstAux seen t from by
        simp [dedupFirstAux, h], ih]
      constructor
      · rintro ⟨hm, hs⟩
        exact ⟨List.mem_cons_of_mem _ hm, hs⟩
      · rintro ⟨hm, hs⟩
        rcases List.mem_cons.1 hm with rfl | hm2
        · exact absurd h hs
        · exact ⟨hm2, hs⟩
    · rw [show dedupFirstAux seen (b :: t) = b :: dedupFirstAux (b :: seen) t from by
        simp [dedupFirstAux, h]]
      constructor
      · intro hmem
        rcases List.mem_cons.1 hmem with rfl | hm2
        · exact ⟨List.mem_cons_self _ _, h⟩
        · rcases ih.1 hm2 with ⟨hm3, hs3⟩
          exact ⟨List.mem_cons_of_mem _ hm3,
            fun hseen => hs3 (List.mem_cons_of_mem _ hseen)⟩
      · rintro ⟨hm, hs⟩
        rcases List.mem_cons.1 hm with rfl | hm2
        · exact List.mem_cons_self _ _
        · by_cases hab : a = b
          · subst hab; exact List.mem_cons_self _ _
          · refine List.mem_cons_of_mem _ (ih.2 ⟨hm2, ?_⟩)
            intro hseen
            rcases List.mem_cons.1 hseen with h1 | h2
            · exact hab h1
            · exact hs h2

theorem mem_dedupFirst [DecidableEq α] {l : List α} {a : α} :
    a ∈ dedupFirst l ↔ a ∈ l := by
  simp [dedupFirst, mem_dedupFirstAux]

theorem nodup_dedupFirstAux [DecidableEq α] (seen : List α) :
    ∀ l : List α, (dedupFirstAux seen l).Nodup := by
  intro l
  induction l generalizing seen with
  | nil => simp [dedupFirstAux]
  | cons a t ih =>
    by_cases h : a ∈ seen
    · simpa [dedupFirstAux, h] using ih seen
    · rw [show dedupFirstAux seen (a :: t) = a :: dedupFirstAux (a :: seen) t from by
        simp [dedupFirstAux, h]]
      refine List.Pairwise.cons ?_ (ih (a :: seen))
      intro b hb
      have hmem := mem_dedupFirstAux.1 hb
      intro hab
      exact hmem.2 (hab ▸ List.mem_cons_self a seen)

theorem nodup_dedupFirst [DecidableEq α] (l : List α) : (dedupFirst l).Nodup :=
  nodup_dedupFirstAux [] l

/-! ### config.py : RAGConfig -/

/-- RAGConfig (config.py lines 6-25).  Python `int` is `Int`; the `float`
field `temperature` is only stored and compared, never computed with, so it
is modelled by an exact rational. -/
structure RAGConfig where
  data_path : Str
  index_save_path : Str
  embedding_model : Str
  llm_model : Str
  top_k : Int
  top_cmp_k : Int
  temperature : ℚ
  max_tokens : Int
deriving DecidableEq, Repr

/-- The dataclass field defaults of RAGConfig. -/
def defaultConfig : RAGConfig :=
  ⟨"data".data, "index".data, "BAAI/bge-small-zh-v1.5".data,
   "deepseek-reasoner".data, 10, 3, 7/10, 2048⟩

/-- The dictionary shape passed between `to_dict` and `from_dict`: each of
the eight constructor keyword names either present or absent. -/
structure ConfigDict where
  data_path : Option Str
  index_save_path : Option Str
  embedding_model : Option Str
  llm_model : Option Str
  top_k : Option Int
  top_cmp_k : Option Int
  temperature : Option ℚ
  max_tokens : Option Int
deriving DecidableEq, Repr

/-- `RAGConfig.to_dict` (config.py lines 32-42).  The returned dict contains
seven keys; `top_cmp_k` is not among them. -/
def RAGConfig.to_dict (c : RAGConfig) : ConfigDict :=
  ⟨some c.data_path, some c.index_save_path, some c.embedding_model,
   some c.llm_model, some c.top_k, none, some c.temperature, some c.max_tokens⟩

/-- `RAGConfig.from_dict` (config.py lines 27-30): `cls(**config_dict)`,
every absent key falling back to the dataclass default. -/
def RAGConfig.from_dict (d : ConfigDict) : RAGConfig :=
  ⟨d.data_path.getD defaultConfig.data_path,
   d.index_save_path.getD defaultConfig.index_save_path,
   d.embedding_model.getD defaultConfig.embedding_model,
   d.llm_model.getD defaultConfig.llm_model,
   d.top_k.getD defaultConfig.top_k,
   d.top_cmp_k.getD defaultConfig.top_cmp_k,
   d.temperature.getD defaultConfig.temperature,
   d.max_tokens.getD defaultConfig.max_tokens⟩

/-- C10: the serialization round trip `from_dict (to_dict c)` succeeds and
agrees with `c` on data_path, index_save_path, embedding_model, llm_model,
top_k, temperature and max_tokens, while `top_cmp_k` always comes back as
the default 3 regardless of `c.top_cmp_k`, because `to_dict` omits that
key. -/
theorem config_roundtrip_loses_top_cmp_k (c : RAGConfig) :
    (RAGConfig.from_dict (RAGConfig.to_dict c)).data_path = c.data_path ∧
    (RAGConfig.from_dict (RAGConfig.to_dict c)).index_save_path = c.index_save_path ∧
    (RAGConfig.from_dict (RAGConfig.to_dict c)).embedding_model = c.embedding_model ∧
    (RAGConfig.from_dict (RAGConfig.to_dict c)).llm_model = c.llm_model ∧
    (RAGConfig.from_dict (RAGConfig.to_dict c)).top_k = c.top_k ∧
    (RAGConfig.from_dict (RAGConfig.to_dict c)).temperature = c.temperature ∧
    (RAGConfig.from_dict (RAGConfig.to_dict c)).max_tokens = c.max_tokens ∧
    (RAGConfig.from_dict (RAGConfig.to_dict c)).top_cmp_k = 3 :=
  ⟨rfl, rfl, rfl, rfl, rfl, rfl, rfl, rfl⟩

/-! ### cli.py : filter inference (_extract_filters_from_query) -/

/-- The metadata of one parent document, restricted to the fields that
cli.py and data_preparation.py read.  `metadata.get(k)` is `none` when the
key is absent. -/
structure PDoc where
  parent_id : Option Str
  title : Option Str
  artist : Option Str
  album : Option Str
  year : Option Str
  region : Option Str
deriving DecidableEq, Repr

/-- The filter dict built by `_extract_filters_from_query`: only the five
keys artist, album, region, year, title are ever assigned, each at most
once (a record field per key). -/
structure Filters where
  artist : Option Str
  album : Option Str
  region : Option Str
  year : Option Str
  title : Option Str
deriving DecidableEq, Repr

/-- The distinct values of one metadata field over the corpus with `None`
discarded, in first-occurrence corpus order.  Python builds a set here; its
iteration order is unspecified, so all theorems below depend only on the
lengths of the values, never on the relative order of two equal-length
values, and all concrete inputs use values of pairwise distinct lengths. -/
def corpusVals (docs : List PDoc) (f : PDoc → Option Str) : List Str :=
  dedupFirst (docs.filterMap f)

/-- The ordering used by `sorted(values, key = len, reverse = True)`. -/
def lenGe (a b : Str) : Prop := b.length ≤ a.length

instance : DecidableRel lenGe := fun a b => Nat.decLe b.length a.length

instance : IsTotal Str lenGe :=
  ⟨fun a b => (Nat.le_total b.length a.length).elim Or.inl Or.inr⟩

instance : IsTrans Str lenGe :=
  ⟨fun _ _ _ hab hbc => Nat.le_trans hbc hab⟩

/-- `sorted(values, key = len, reverse = True)`: longest first, stable. -/
def sortLenDesc (l : List Str) : List Str := List.insertionSort lenGe l

/-- The loop condition `if v and v in query`. -/
def matchPred (q v : Str) : Bool := !v.isEmpty && substrOf v q

/-- The artist loop (cli.py lines 301-304): scan longest first and `break`
on the first hit, so the first (longest) matching value is kept. -/
def pickBreak (vals : List Str) (q : Str) : Option Str :=
  (sortLenDesc vals).find? (matchPred q)

/-- The album, region, year and title loops (cli.py lines 306-320): scan
longest first with no `break`, overwriting the dict entry on every hit, so
the last (shortest) matching value is kept. -/
def pickOverwrite (vals : List Str) (q : Str) : Option Str :=
  ((sortLenDesc vals).filter (matchPred q)).getLast?

/-- `_extract_filters_from_query` (cli.py lines 288-322). -/
def extract_filters_from_query (docs : List PDoc) (q : Str) : Filters :=
  ⟨pickBreak (corpusVals docs PDoc.artist) q,
   pickOverwrite (corpusVals docs PDoc.album) q,
   pickOverwrite (corpusVals docs PDoc.region) q,
   pickOverwrite (corpusVals docs PDoc.year) q,
   pickOverwrite (corpusVals docs PDoc.title) q⟩

theorem sortLenDesc_sorted (l : List Str) : (sortLenDesc l).Sorted lenGe :=
  List.sorted_insertionSort lenGe l

theorem sortLenDesc_perm (l : List Str) : (sortLenDesc l).Perm l :=
  List.perm_insertionSort lenGe l

/-- In a longest-first list, `find?` returns a value at least as long as
every later (hence every) matching value. -/
theorem length_le_of_find?_sorted {l : List Str} (hs : l.Sorted lenGe)
    {p : Str → Bool} {a : Str} (h : l.find? p = some a) :
    ∀ v ∈ l, p v = true → v.length ≤ a.length := by
  induction l with
  | nil => cases h
  | cons x t ih =>
    rcases List.pairwise_cons.1 hs with ⟨hx, ht⟩
    by_cases hpx : p x = true
    · rw [List.find?_cons_of_pos _ hpx] at h
      cases h
      intro v hv hpv
      rcases List.mem_cons.1 hv with rfl | hvt
      · exact Nat.le_refl _
      · exact hx v hvt
    · rw [List.find?_cons_of_neg _ (by simpa using hpx)] at h
      intro v hv hpv
      rcases List.mem_cons.1 hv with rfl | hvt
      · exact absurd hpv hpx
      · exact ih ht h v hvt hpv

/-- The last element of a longest-first list is no longer than any
element. -/
theorem getLast?_length_le_of_sorted {l : List Str} (hs : l.Sorted lenGe)
    {a : Str} (h : l.getLast? = some a) :
    ∀ v ∈ l, a.length ≤ v.length := by
  induction l with
  | nil => cases h
  | cons x t ih =>
    rcases List.pairwise_cons.1 hs with ⟨hx, ht⟩
    cases t with
    | nil =>
      cases h
      intro v hv
      rcases List.mem_cons.1 hv with rfl | hvt
      · exact Nat.le_refl _
      · cases hvt
    | cons y t2 =>
      rw [List.getLast?_cons_cons] at h
      have hrec := ih ht h
      intro v hv
      rcases List.mem_cons.1 hv with rfl | hvt
      · exact Nat.le_trans (hrec y (List.mem_cons_self _ _))
          (hx y (List.mem_cons_self _ _))
      · exact hrec v hvt

theorem mem_of_getLast? {l : List α} {a : α} (h : l.getLast? = some a) :
    a ∈ l := by
  induction l with
  | nil => cases h
  | cons x t ih =>
    cases t with
    | nil => cases h; exact List.mem_cons_self _ _
    | cons y t2 =>
      rw [List.getLast?_cons_cons] at h
      exact List.mem_cons_of_mem _ (ih h)

/-- Soundness of the artist loop: the selected value is a corpus value,
non-empty, occurs in the query, and is at least as long as every matching
corpus value of the field. -/
theorem pickBreak_sound {vals : List Str} {q a : Str}
    (h : pickBreak vals q = some a) :
    a ∈ vals ∧ matchPred q a = true ∧
      ∀ v ∈ vals, matchPred q v = true → v.length ≤ a.length := by
  refine ⟨(sortLenDesc_perm vals).mem_iff.1 (List.mem_of_find?_eq_some h),
    List.find?_some h, fun v hv hpv => ?_⟩
  exact length_le_of_find?_sorted (sortLenDesc_sorted vals) h v
    ((sortLenDesc_perm vals).mem_iff.2 hv) hpv

/-- Soundness of the no-break loops: the selected value is a corpus value,
non-empty, occurs in the query, and is no longer than any matching corpus
value of the field. -/
theorem pickOverwrite_sound {vals : List Str} {q a : Str}
    (h : pickOverwrite vals q = some a) :
    a ∈ vals ∧ matchPred q a = true ∧
      ∀ v ∈ vals, matchPred q v = true → a.length ≤ v.length := by
  have hmem := mem_of_getLast? h
  have hsorted : ((sortLenDesc vals).filter (matchPred q)).Sorted lenGe :=
    List.Pairwise.filter _ (sortLenDesc_sorted vals)
  rcases List.mem_filter.1 hmem with ⟨hm, hp⟩
  refine ⟨(sortLenDesc_perm vals).mem_iff.1 hm, hp, fun v hv hpv => ?_⟩
  exact getLast?_length_le_of_sorted hsorted h v
    (List.mem_filter.2 ⟨(sortLenDesc_perm vals).mem_iff.2 hv, hpv⟩)

/-- A match exists exactly when the loops assign the field. -/
theorem pickBreak_isSome {vals : List Str} {q : Str}
    (h : ∃ v ∈ vals, matchPred q v = true) : (pickBreak vals q).isSome := by
  rcases h with ⟨v, hv, hpv⟩
  exact List.find?_isSome.2 ⟨v, (sortLenDesc_perm vals).mem_iff.2 hv, hpv⟩

theorem pickOverwrite_isSome {vals : List Str} {q : Str}
    (h : ∃ v ∈ vals, matchPred q v = true) : (pickOverwrite vals q).isSome := by
  rcases h with ⟨v, hv, hpv⟩
  have hmem : v ∈ (sortLenDesc vals).filter (matchPred q) :=
    List.mem_filter.2 ⟨(sortLenDesc_perm vals).mem_iff.2 hv, hpv⟩
  have hne : (sortLenDesc vals).filter (matchPred q) ≠ [] := by
    intro hnil
    rw [hnil] at hmem
    cases hmem
  show ((sortLenDesc vals).filter (matchPred q)).getLast?.isSome = true
  rw [List.getLast?_eq_getLast _ hne]
  rfl

theorem matchPred_elim {q v : Str} (h : matchPred q v = true) :
    v ≠ [] ∧ substrOf v q = true := by
  have h' : (!v.isEmpty) = true ∧ substrOf v q = true := by
    simpa [matchPred] using h
  rcases h' with ⟨h1, h2⟩
  refine ⟨?_, h2⟩
  intro hnil
  subst hnil
  cases h1

/-- A field is selected only if its value is read off some parent document. -/
theorem mem_corpusVals_elim {docs : List PDoc} {f : PDoc → Option Str} {a : Str}
    (h : a ∈ corpusVals docs f) : ∃ d ∈ docs, f d = some a := by
  rcases List.mem_filterMap.1 (mem_dedupFirst.1 h) with ⟨d, hd, hfd⟩
  exact ⟨d, hd, hfd⟩

/-- The field-selection discipline of one loop with `break`: whenever the
result is `some a`, `a` is a matching corpus value at least as long as every
matching corpus value; and some value is selected whenever one matches. -/
def longestSelected (vals : List Str) (q : Str) (r : Option Str) : Prop :=
  (∀ a, r = some a → a ∈ vals ∧ matchPred q a = true ∧
    ∀ v ∈ vals, matchPred q v = true → v.length ≤ a.length) ∧
  ((∃ v ∈ vals, matchPred q v = true) → r.isSome)

/-- The field-selection discipline of one loop without `break`: whenever the
result is `some a`, `a` is a matching corpus value no longer than any
matching corpus value; and some value is selected whenever one matches. -/
def shortestSelected (vals : List Str) (q : Str) (r : Option Str) : Prop :=
  (∀ a, r = some a → a ∈ vals ∧ matchPred q a = true ∧
    ∀ v ∈ vals, matchPred q v = true → a.length ≤ v.length) ∧
  ((∃ v ∈ vals, matchPred q v = true) → r.isSome)

/-- C1 (amended): each field selects at most one value (one record field per
metadata key).  The artist loop breaks on its first hit of the longest-first
scan, so the selected artist is a longest matching corpus value; the album,
region, year and title loops never break and overwrite their entry on every
hit, so the selected value for those fields is a shortest matching corpus
value; every field with at least one matching corpus value is populated. -/
theorem extract_filters_selection (docs : List PDoc) (q : Str) :
    longestSelected (corpusVals docs PDoc.artist) q
      (extract_filters_from_query docs q).artist ∧
    shortestSelected (corpusVals docs PDoc.album) q
      (extract_filters_from_query docs q).album ∧
    shortestSelected (corpusVals docs PDoc.region) q
      (extract_filters_from_query docs q).region ∧
    shortestSelected (corpusVals docs PDoc.year) q
      (extract_filters_from_query docs q).year ∧
    shortestSelected (corpusVals docs PDoc.title) q
      (extract_filters_from_query docs q).title := by
  refine ⟨⟨fun a h => pickBreak_sound h, fun h => pickBreak_isSome h⟩,
    ⟨fun a h => pickOverwrite_sound h, fun h => pickOverwrite_isSome h⟩,
    ⟨fun a h => pickOverwrite_sound h, fun h => pickOverwrite_isSome h⟩,
    ⟨fun a h => pickOverwrite_sound h, fun h => pickOverwrite_isSome h⟩,
    ⟨fun a h => pickOverwrite_sound h, fun h => pickOverwrite_isSome h⟩⟩

/-- A corpus with two album values of different lengths, both of which occur
in the query below. -/
def cDoc1 : PDoc := ⟨none, none, none, some "ab".data, none, none⟩

def cDoc2 : PDoc := ⟨none, none, none, some "b".data, none, none⟩

/-- C1 counterexample: with album corpus values "ab" and "b" and the query
"ab", both values occur as substrings of the query; the claim selects the
first hit of the longest-first scan ("ab"), but the album loop has no
`break` and keeps overwriting, so the code returns the shortest matching
value "b". -/
theorem extract_filters_album_not_longest :
    (extract_filters_from_query [cDoc1, cDoc2] "ab".data).album = some "b".data ∧
    "ab".data ∈ corpusVals [cDoc1, cDoc2] PDoc.album ∧
    matchPred "ab".data "ab".data = true ∧
    ("b".data : Str).length < ("ab".data : Str).length := by
  refine ⟨?_, ?_, ?_, ?_⟩ <;> decide

/-- Witness for the amended C1: at the corpus above, the selected album "b"
is no longer than the matching value "ab". -/
theorem extract_filters_selection_witness :
    ("b".data : Str).length ≤ ("ab".data : Str).length := by
  have h := extract_filters_selection [cDoc1, cDoc2] "ab".data
  exact (h.2.1.1 ("b".data) (by decide)).2.2 ("ab".data) (by decide) (by decide)

/-- C8: every value placed in the filter set is a non-empty value observed
in some parent document for that same field, and occurs as a literal
substring of the query; the keys are limited to the five fields artist,
album, region, year, title by the shape of `Filters`. -/
theorem extract_filters_values_sound (docs : List PDoc) (q : Str) :
    (∀ a, (extract_filters_from_query docs q).artist = some a →
      (∃ d ∈ docs, d.artist = some a) ∧ a ≠ [] ∧ substrOf a q = true) ∧
    (∀ a, (extract_filters_from_query docs q).album = some a →
      (∃ d ∈ docs, d.album = some a) ∧ a ≠ [] ∧ substrOf a q = true) ∧
    (∀ a, (extract_filters_from_query docs q).region = some a →
      (∃ d ∈ docs, d.region = some a) ∧ a ≠ [] ∧ substrOf a q = true) ∧
    (∀ a, (extract_filters_from_query docs q).year = some a →
      (∃ d ∈ docs, d.year = some a) ∧ a ≠ [] ∧ substrOf a q = true) ∧
    (∀ a, (extract_filters_from_query docs q).title = some a →
      (∃ d ∈ docs, d.title = some a) ∧ a ≠ [] ∧ substrOf a q = true) := by
  refine ⟨fun a h => ?_, fun a h => ?_, fun a h => ?_, fun a h => ?_, fun a h => ?_⟩
  · rcases pickBreak_sound h with ⟨hm, hp, _⟩
    exact ⟨mem_corpusVals_elim hm, matchPred_elim hp⟩
  · rcases pickOverwrite_sound h with ⟨hm, hp, _⟩
    exact ⟨mem_corpusVals_elim hm, matchPred_elim hp⟩
  · rcases pickOverwrite_sound h with ⟨hm, hp, _⟩
    exact ⟨mem_corpusVals_elim hm, matchPred_elim hp⟩
  · rcases pickOverwrite_sound h with ⟨hm, hp, _⟩
    exact ⟨mem_corpusVals_elim hm, matchPred_elim hp⟩
  · rcases pickOverwrite_sound h with ⟨hm, hp, _⟩
    exact ⟨mem_corpusVals_elim hm, matchPred_elim hp⟩

/-- A two-document corpus matching the specification example: artists 张悬
and 魏如萱, album 玫瑰色的你. -/
def cDocA : PDoc := ⟨none, none, some "张悬".data, some "玫瑰色的你".data, none, none⟩

def cDocB : PDoc := ⟨none, none, some "魏如萱".data, none, none, none⟩

/-- Witness for C8, on the specification example query: the inferred artist
value 张悬 comes from a document, is non-empty, and occurs in the query. -/
theorem extract_filters_values_sound_witness :
    (∃ d ∈ [cDocA, cDocB], d.artist = some "张悬".data) ∧
    "张悬".data ≠ ([] : Str) ∧
    substrOf "张悬".data "张悬的《玫瑰色的你》怎么样".data = true := by
  have h := extract_filters_values_sound [cDocA, cDocB] "张悬的《玫瑰色的你》怎么样".data
  exact h.1 ("张悬".data) (by decide)

/-! ### data_preparation.py : parent aggregation (get_parent_documents) -/

/-- A child chunk as consumed by the parent aggregator: only
`metadata.get("parent_id")` is read. -/
structure CChunk where
  parent_id : Option Str
deriving DecidableEq, Repr

/-- The guard `if not pid: continue` (data_preparation.py lines 331-333): a
missing or empty parent_id is discarded. -/
def truthyPid : Option Str → Option Str
  | none => none
  | some s => if s = [] then none else some s

/-- The keys of `parent_scores` in dict insertion order: the distinct
truthy parent ids in first-encounter order over the input chunks. -/
def aggPids (chunks : List CChunk) : List Str :=
  dedupFirst (chunks.filterMap (fun c => truthyPid c.parent_id))

/-- `parent_scores[pid]`: how many input chunks carry `pid`. -/
def pidScore (chunks : List CChunk) (pid : Str) : Nat :=
  chunks.countP (fun c => decide (truthyPid c.parent_id = some pid))

/-- The order realized by `sorted(parent_scores.keys(), key, reverse=True)`
(data_preparation.py line 342) on index-value pairs: score descending, and
ties in first-encounter order, which is what the stable Python sort does
with `reverse = True`. -/
def aggRel (chunks : List CChunk) (x y : Nat × Str) : Prop :=
  pidScore chunks y.2 < pidScore chunks x.2 ∨
    (pidScore chunks x.2 = pidScore chunks y.2 ∧ x.1 ≤ y.1)

instance (chunks : List CChunk) : DecidableRel (aggRel chunks) := fun _ _ =>
  inferInstanceAs (Decidable (Or _ _))

instance (chunks : List CChunk) : IsTotal (Nat × Str) (aggRel chunks) :=
  ⟨by intro x y; simp only [aggRel]; omega⟩

instance (chunks : List CChunk) : IsTrans (Nat × Str) (aggRel chunks) :=
  ⟨by intro x y z; simp only [aggRel]; omega⟩

/-- The sorted parent ids, paired with their first-encounter index. -/
def sortedAggPids (chunks : List CChunk) : List (Nat × Str) :=
  List.insertionSort (aggRel chunks) (aggPids chunks).enum

/-- `parent_map[pid]`: the first corpus parent whose metadata parent_id
equals `pid` (data_preparation.py lines 335-339). -/
def resolveParent (parents : List PDoc) (pid : Str) : Option PDoc :=
  parents.find? (fun p => decide (p.parent_id = some pid))

/-- `get_parent_documents` (data_preparation.py lines 322-346): rank the
truthy parent ids by occurrence count (stable descending sort) and resolve
each to its first matching parent, dropping ids that resolve to nothing. -/
def get_parent_documents (parents : List PDoc) (chunks : List CChunk) : List PDoc :=
  (sortedAggPids chunks).filterMap (fun ip => resolveParent parents ip.2)

/-- The first-encounter rank of a parent id among the input chunks. -/
def firstEnc (chunks : List CChunk) (a : Str) : Nat :=
  (aggPids chunks).findIdx (fun v => decide (v = a))

theorem findIdx_eq_of_getElem? [DecidableEq α] {l : List α} (hn : l.Nodup) :
    ∀ {i : Nat} {a : α}, l[i]? = some a →
      l.findIdx (fun v => decide (v = a)) = i := by
  induction l with
  | nil => intro i a h; cases h
  | cons x t ih =>
    intro i a h
    cases i with
    | zero =>
      rw [List.getElem?_cons_zero] at h
      cases h
      simp [List.findIdx_cons]
    | succ j =>
      rw [List.getElem?_cons_succ] at h
      have hat : a ∈ t := List.getElem?_mem h
      have hxa : x ≠ a := by
        intro hx
        exact (List.nodup_cons.1 hn).1 (hx ▸ hat)
      have hdec : (decide (x = a)) = false := by simp [hxa]
      rw [List.findIdx_cons, hdec]
      simp only [cond_false]
      rw [ih (List.nodup_cons.1 hn).2 h]

theorem mem_enumFrom_snd {n : Nat} {l : List α} {x : Nat × α}
    (h : x ∈ l.enumFrom n) : x.2 ∈ l := by
  induction l generalizing n with
  | nil => cases h
  | cons b t ih =>
    rcases List.mem_cons.1 h with rfl | h2
    · exact List.mem_cons_self _ _
    · exact List.mem_cons_of_mem _ (ih h2)

theorem mem_enumFrom_fst_le {n : Nat} {l : List α} {x : Nat × α}
    (h : x ∈ l.enumFrom n) : n ≤ x.1 := by
  induction l generalizing n with
  | nil => cases h
  | cons b t ih =>
    rcases List.mem_cons.1 h with rfl | h2
    · exact Nat.le_refl _
    · exact Nat.le_of_succ_le (ih h2)

theorem pairwise_enumFrom_fst_lt (n : Nat) (l : List α) :
    (l.enumFrom n).Pairwise (fun x y => x.1 < y.1) := by
  induction l generalizing n with
  | nil => exact List.Pairwise.nil
  | cons b t ih =>
    refine List.Pairwise.cons ?_ (ih (n + 1))
    intro y hy
    exact Nat.lt_of_succ_le (mem_enumFrom_fst_le hy)

theorem pairwise_enumFrom_snd_ne {l : List α} (hn : l.Nodup) (n : Nat) :
    (l.enumFrom n).Pairwise (fun x y => x.2 ≠ y.2) := by
  induction l generalizing n with
  | nil => exact List.Pairwise.nil
  | cons b t ih =>
    rcases List.nodup_cons.1 hn with ⟨hb, ht⟩
    refine List.Pairwise.cons ?_ (ih ht (n + 1))
    intro y hy hby
    apply hb
    have hby2 : b = y.2 := hby
    rw [hby2]
    exact mem_enumFrom_snd hy

theorem resolveParent_eq {parents : List PDoc} {pid : Str} {p : PDoc}
    (h : resolveParent parents pid = some p) :
    p.parent_id = some pid ∧ p ∈ parents := by
  have h' : parents.find? (fun q => decide (q.parent_id = some pid)) = some p := h
  refine ⟨?_, List.mem_of_find?_eq_some h'⟩
  have h2 := List.find?_some h'
  simpa using h2

/-- How one emitted parent ranks above a later one: higher occurrence
count, or an equal count with an earlier first encounter. -/
def rankedAbove (chunks : List CChunk) (p q : PDoc) : Prop :=
  ∀ a b, p.parent_id = some a → q.parent_id = some b →
    pidScore chunks b ≤ pidScore chunks a ∧
      (pidScore chunks a = pidScore chunks b →
        firstEnc chunks a < firstEnc chunks b)

/-- C3: the parent aggregator emits a deduplicated list of known parent
documents, ordered non-increasing by the occurrence count of their parent
id among the input chunks, with ties broken in favor of the id first
encountered earlier in the input; chunks with a missing, empty or
unresolvable parent_id are silently skipped, and every id that does
resolve is emitted. -/
theorem get_parent_documents_ranking (parents : List PDoc) (chunks : List CChunk) :
    (get_parent_documents parents chunks).Pairwise (rankedAbove chunks) ∧
    (get_parent_documents parents chunks).Nodup ∧
    (∀ p ∈ get_parent_documents parents chunks,
      p ∈ parents ∧ ∃ a, p.parent_id = some a ∧ a ∈ aggPids chunks) ∧
    (∀ a ∈ aggPids chunks, ∀ p, resolveParent parents a = some p →
      p ∈ get_parent_documents parents chunks) := by
  have hperm : (sortedAggPids chunks).Perm (aggPids chunks).enum :=
    List.perm_insertionSort _ _
  have hsorted : (sortedAggPids chunks).Pairwise (aggRel chunks) :=
    List.sorted_insertionSort _ _
  have hnodup : (aggPids chunks).Nodup := nodup_dedupFirst _
  have hsndne : (sortedAggPids chunks).Pairwise (fun x y => x.2 ≠ y.2) :=
    (hperm.pairwise_iff (fun h => h.symm)).2 (pairwise_enumFrom_snd_ne hnodup 0)
  have hfstne : (sortedAggPids chunks).Pairwise (fun x y => x.1 ≠ y.1) :=
    (hperm.pairwise_iff (fun h => h.symm)).2
      ((pairwise_enumFrom_fst_lt 0 _).imp (fun h => Nat.ne_of_lt h))
  have hidx : ∀ x ∈ sortedAggPids chunks, firstEnc chunks x.2 = x.1 := by
    intro x hx
    have hxe : x ∈ (aggPids chunks).enum := hperm.mem_iff.1 hx
    rcases x with ⟨i, a⟩
    have hget := List.mk_mem_enum_iff_getElem?.1 hxe
    exact findIdx_eq_of_getElem? hnodup hget
  have hmain : (sortedAggPids chunks).Pairwise (fun x y =>
      (pidScore chunks y.2 ≤ pidScore chunks x.2 ∧
        (pidScore chunks x.2 = pidScore chunks y.2 →
          firstEnc chunks x.2 < firstEnc chunks y.2)) ∧ x.2 ≠ y.2) := by
    refine ((hsorted.and hfstne).and hsndne).imp_of_mem ?_
    intro x y hx hy h
    rcases h with ⟨⟨hrel, hfne⟩, hsne⟩
    have hx1 := hidx x hx
    have hy1 := hidx y hy
    refine ⟨⟨?_, ?_⟩, hsne⟩
    · rcases hrel with h | ⟨h, _⟩
      · exact Nat.le_of_lt h
      · exact Nat.le_of_eq h.symm
    · intro heq
      rw [hx1, hy1]
      rcases hrel with h | ⟨_, hle⟩
      · omega
      · omega
  refine ⟨?_, ?_, ?_, ?_⟩
  · refine List.pairwise_filterMap.2 (hmain.imp ?_)
    intro x y h p hp q hq a b hpa hqb
    have hpeq : p.parent_id = some x.2 := (resolveParent_eq (Option.mem_def.1 hp)).1
    have hqeq : q.parent_id = some y.2 := (resolveParent_eq (Option.mem_def.1 hq)).1
    have ha : a = x.2 := Option.some.inj (hpa.symm.trans hpeq)
    have hb : b = y.2 := Option.some.inj (hqb.symm.trans hqeq)
    subst ha
    subst hb
    exact h.1
  · refine List.pairwise_filterMap.2 (hmain.imp ?_)
    intro x y h p hp q hq hpq
    have hpeq : p.parent_id = some x.2 := (resolveParent_eq (Option.mem_def.1 hp)).1
    have hqeq : q.parent_id = some y.2 := (resolveParent_eq (Option.mem_def.1 hq)).1
    apply h.2
    have hxy : some x.2 = some y.2 := by rw [← hpeq, hpq, hqeq]
    exact Option.some.inj hxy
  · intro p hp
    rcases List.mem_filterMap.1 hp with ⟨ip, hip, hres⟩
    have hpeq : p.parent_id = some ip.2 := (resolveParent_eq hres).1
    refine ⟨(resolveParent_eq hres).2, ip.2, hpeq, ?_⟩
    have hxe : ip ∈ (aggPids chunks).enum := hperm.mem_iff.1 hip
    exact mem_enumFrom_snd hxe
  · intro a ha p hres
    rcases List.mem_iff_getElem?.1 ha with ⟨i, hi⟩
    have henum : (i, a) ∈ (aggPids chunks).enum :=
      List.mk_mem_enum_iff_getElem?.2 hi
    exact List.mem_filterMap.2 ⟨(i, a), hperm.mem_iff.2 henum, hres⟩

/-- Two known parents and a chunk list with a tie in occurrence counts, an
unresolvable id, a missing id and an empty id. -/
def wParent1 : PDoc := ⟨some "p1".data, none, none, none, none, none⟩

def wParent2 : PDoc := ⟨some "p2".data, none, none, none, none, none⟩

def wChunks : List CChunk :=
  [⟨some "p2".data⟩, ⟨some "p1".data⟩, ⟨some "zz".data⟩, ⟨none⟩, ⟨some [] ⟩]

/-- Witness for C3: the emitted parent wParent2 is a known parent whose id
was counted. -/
theorem get_parent_documents_ranking_witness :
    wParent2 ∈ [wParent1, wParent2] ∧
    ∃ a, wParent2.parent_id = some a ∧ a ∈ aggPids wChunks := by
  have h := get_parent_documents_ranking [wParent1, wParent2] wChunks
  exact h.2.2.1 wParent2 (by decide)

/-! ### retrieval_optimization.py : rank fusion

The file src/lyricmind/retrieval/retrieval_optimization.py is not among the
sources; only its caller (cli.py) and its test
(tests/test_retrieval_optimization.py) are.  `_rrf_rerank` is therefore
modelled from the specification below. -/

/-- An entry of the fused output: a chunk id, its first-encounter index in
the deduplicated union of the two input lists (list A scanned before list
B), and its attached `rrf_score`. -/
structure RrfEntry where
  cid : Nat
  idx : Nat
  score : ℚ
deriving DecidableEq, Repr

/-- Modelled from the spec: the reciprocal-rank contribution of one ranked
list, `1 / (k_constant + rank)` with 1-based rank for a present chunk and 0
for an absent one (retrieval_optimization.py is missing from the
sources). -/
def rrfContrib (l : List Nat) (k : Nat) (c : Nat) : ℚ :=
  match l.findIdx? (fun x => decide (x = c)) with
  | some i => 1 / ((k : ℚ) + (i : ℚ) + 1)
  | none => 0

/-- Modelled from the spec: the fused score of a chunk is the sum of its
reciprocal-rank contributions over both input lists. -/
def rrf_score (A B : List Nat) (k : Nat) (c : Nat) : ℚ :=
  rrfContrib A k c + rrfContrib B k c

/-- Sort order of the fused output: score descending, ties by
first-encounter index ascending. -/
def rrfRel (x y : RrfEntry) : Prop :=
  y.score < x.score ∨ (x.score = y.score ∧ x.idx ≤ y.idx)

instance : DecidableRel rrfRel := fun _ _ =>
  inferInstanceAs (Decidable (Or _ _))

instance : IsTotal RrfEntry rrfRel := ⟨by
  intro x y
  rcases lt_trichotomy x.score y.score with h | h | h
  · exact Or.inr (Or.inl h)
  · rcases Nat.le_total x.idx y.idx with h1 | h1
    · exact Or.inl (Or.inr ⟨h, h1⟩)
    · exact Or.inr (Or.inr ⟨h.symm, h1⟩)
  · exact Or.inl (Or.inl h)⟩

instance : IsTrans RrfEntry rrfRel := ⟨by
  intro x y z hxy hyz
  rcases hxy with h1 | ⟨he1, hi1⟩
  · rcases hyz with h2 | ⟨he2, hi2⟩
    · exact Or.inl (lt_trans h2 h1)
    · refine Or.inl ?_
      rw [← he2]
      exact h1
  · rcases hyz with h2 | ⟨he2, hi2⟩
    · refine Or.inl ?_
      rw [he1]
      exact h2
    · exact Or.inr ⟨he1.trans he2, le_trans hi1 hi2⟩⟩

/-- Modelled from the spec: `_rrf_rerank(list_a, list_b, k)` — deduplicated
union of both lists in first-encounter order (A scanned before B), each
chunk tagged with its fused score, sorted by score descending with ties in
first-encounter order (retrieval_optimization.py is missing from the
sources; tests/test_retrieval_optimization.py exercises exactly this
contract). -/
def rrf_rerank (A B : List Nat) (k : Nat) : List RrfEntry :=
  List.insertionSort rrfRel
    ((dedupFirst (A ++ B)).enum.map (fun ia => ⟨ia.2, ia.1, rrf_score A B k ia.2⟩))

theorem enumFrom_map_snd (n : Nat) (l : List α) :
    (l.enumFrom n).map Prod.snd = l := by
  induction l generalizing n with
  | nil => rfl
  | cons b t ih => simp [List.enumFrom, ih]

theorem enum_map_snd (l : List α) : l.enum.map Prod.snd = l :=
  enumFrom_map_snd 0 l

/-- C2: the fused output of `_rrf_rerank` (modelled from the spec, the
module being absent from the sources) is the deduplicated union of both
input lists, each chunk carrying the fused score
`sum over the lists containing it of 1/(k + rank)`, sorted descending by
score with ties broken by first-encountered order scanning A then B; on
the concrete example A = [1,2], B = [1,3], k = 60 the output is [1,2,3]
with scores 2/61, 1/62, 1/62. -/
theorem rrf_rerank_spec (A B : List Nat) (k : Nat) :
    ((rrf_rerank A B k).map RrfEntry.cid).Perm (dedupFirst (A ++ B)) ∧
    (∀ e ∈ rrf_rerank A B k, e.score = rrf_score A B k e.cid) ∧
    (rrf_rerank A B k).Pairwise (fun x y => y.score ≤ x.score) ∧
    (rrf_rerank A B k).Pairwise (fun x y => x.score = y.score → x.idx < y.idx) ∧
    (∀ e ∈ rrf_rerank A B k, (dedupFirst (A ++ B))[e.idx]? = some e.cid) ∧
    rrf_rerank [1, 2] [1, 3] 60 =
      [⟨1, 0, 2/61⟩, ⟨2, 1, 1/62⟩, ⟨3, 2, 1/62⟩] := by
  have hperm : (rrf_rerank A B k).Perm
      ((dedupFirst (A ++ B)).enum.map
        (fun ia => ⟨ia.2, ia.1, rrf_score A B k ia.2⟩)) :=
    List.perm_insertionSort _ _
  have hsorted : (rrf_rerank A B k).Pairwise rrfRel :=
    List.sorted_insertionSort _ _
  have hidxne : (rrf_rerank A B k).Pairwise (fun x y => x.idx ≠ y.idx) := by
    refine (hperm.pairwise_iff (fun h => h.symm)).2 ?_
    refine (List.pairwise_map).2 ?_
    exact (pairwise_enumFrom_fst_lt 0 _).imp (fun h => Nat.ne_of_lt h)
  refine ⟨?_, ?_, ?_, ?_, ?_, ?_⟩
  · refine (hperm.map RrfEntry.cid).trans ?_
    rw [List.map_map]
    have hcomp : (RrfEntry.cid ∘ fun ia : Nat × Nat =>
        (⟨ia.2, ia.1, rrf_score A B k ia.2⟩ : RrfEntry)) = Prod.snd := rfl
    rw [hcomp, enum_map_snd]
  · intro e he
    have hm : e ∈ (dedupFirst (A ++ B)).enum.map
        (fun ia => (⟨ia.2, ia.1, rrf_score A B k ia.2⟩ : RrfEntry)) :=
      hperm.mem_iff.1 he
    rcases List.mem_map.1 hm with ⟨ia, _, rfl⟩
    rfl
  · exact hsorted.imp (fun h => by
      rcases h with h | ⟨h, _⟩
      · exact le_of_lt h
      · exact le_of_eq h.symm)
  · refine (hsorted.and hidxne).imp ?_
    intro x y h
    rcases h with ⟨h1 | ⟨he, hle⟩, hne⟩
    · intro heq
      rw [heq] at h1
      exact absurd h1 (lt_irrefl _)
    · intro _
      exact Nat.lt_of_le_of_ne hle hne
  · intro e he
    have hm : e ∈ (dedupFirst (A ++ B)).enum.map
        (fun ia => (⟨ia.2, ia.1, rrf_score A B k ia.2⟩ : RrfEntry)) :=
      hperm.mem_iff.1 he
    rcases List.mem_map.1 hm with ⟨ia, hia, rfl⟩
    have hget := List.mk_mem_enum_iff_getElem?.1 (show (ia.1, ia.2) ∈ _ from by
      rcases ia with ⟨i, a⟩
      exact hia)
    exact hget
  · have hs1 : rrf_score [1, 2] [1, 3] 60 1 = 2/61 := by
      norm_num [rrf_score, rrfContrib, List.findIdx?_cons, List.findIdx?_nil]
    have hs2 : rrf_score [1, 2] [1, 3] 60 2 = 1/62 := by
      norm_num [rrf_score, rrfContrib, List.findIdx?_cons, List.findIdx?_nil,
        List.findIdx?_start_succ]
    have hs3 : rrf_score [1, 2] [1, 3] 60 3 = 1/62 := by
      norm_num [rrf_score, rrfContrib, List.findIdx?_cons, List.findIdx?_nil,
        List.findIdx?_start_succ]
    have henum : (dedupFirst ([1, 2] ++ [1, 3])).enum = [(0, 1), (1, 2), (2, 3)] := by
      decide
    have hlist : (dedupFirst ([1, 2] ++ [1, 3])).enum.map
        (fun ia => (⟨ia.2, ia.1, rrf_score [1, 2] [1, 3] 60 ia.2⟩ : RrfEntry)) =
        [⟨1, 0, 2/61⟩, ⟨2, 1, 1/62⟩, ⟨3, 2, 1/62⟩] := by
      rw [henum]
      simp only [List.map_cons, List.map_nil]
      rw [hs1, hs2, hs3]
    have c1 : rrfRel ⟨2, 1, (1 : ℚ)/62⟩ ⟨3, 2, (1 : ℚ)/62⟩ :=
      Or.inr ⟨rfl, by norm_num⟩
    have c2 : rrfRel ⟨1, 0, (2 : ℚ)/61⟩ ⟨2, 1, (1 : ℚ)/62⟩ :=
      Or.inl (by norm_num)
    show List.insertionSort rrfRel ((dedupFirst ([1, 2] ++ [1, 3])).enum.map
      (fun ia => (⟨ia.2, ia.1, rrf_score [1, 2] [1, 3] 60 ia.2⟩ : RrfEntry))) = _
    rw [hlist]
    simp only [List.insertionSort, List.orderedInsert]
    rw [if_pos c1]
    simp only [List.orderedInsert]
    rw [if_pos c2]

/-- Witness for C2: the head entry of the concrete example indeed carries
its fused score. -/
theorem rrf_rerank_spec_witness :
    (⟨1, 0, (2 : ℚ)/61⟩ : RrfEntry).score = rrf_score [1, 2] [1, 3] 60 1 := by
  have h := rrf_rerank_spec [1, 2] [1, 3] 60
  refine h.2.1 ⟨1, 0, (2 : ℚ)/61⟩ ?_
  rw [h.2.2.2.2.2]
  exact List.mem_cons_self _ _

/-! ### data_preparation.py : chunking (chunk_documents, _split_by_header,
_split_by_size)

The two regular expressions of data_preparation.py are embedded as explicit
matchers with Python re semantics (leftmost match, greedy `\s*` with
backtracking, lazy body with a `(?=\n##\s*|\Z)` lookahead). -/

/-- The header vocabulary: the keys of CATEGORY_MAPPING in dict order
(data_preparation.py lines 22-30). -/
def headerKeys : List Str :=
  ["歌名".data, "歌手".data, "收录专辑".data, "发行时间".data,
   "地区".data, "类型".data, "歌词".data]

/-- Resolution of `\s*\n` before the lazy body: scanning the whitespace run
that follows the header key, remember the latest newline that still leaves
at least one character of body after it (the greedy `\s*` backtracks from
the longest prefix, and `.+?` needs one character).  Returns the suffix
starting right after that newline. -/
def lastNlSplitGo (best : Option Str) : Str → Option Str
  | [] => best
  | c :: t =>
      if pyWS c then
        if c = '\n' && !t.isEmpty then lastNlSplitGo (some t) t
        else lastNlSplitGo best t
      else best

/-- The lazy body `(.+?)(?=\n##\s*|\Z)`: at least one character, extended
until the rest of the text starts with `"\n##"` or ends.  Returns the body
and the unconsumed rest. -/
def takeBody : Str → Str × Str
  | [] => ([], [])
  | c :: t =>
      if ("\n##".data).isPrefixOf t || t.isEmpty then ([c], t)
      else
        let r := takeBody t
        (c :: r.1, r.2)

/-- One attempted match of
`(##\s*(?:KEYS))\s*\n(.+?)(?=\n##\s*|\Z)` at the present suffix: `##`, a
whitespace run, one vocabulary key (no key is a prefix of another, so the
alternation is deterministic), the newline resolution, then the body. -/
def headerMatchAt (s : Str) : Option (Str × Str) :=
  if ("##".data).isPrefixOf s then
    let afterHash := (s.drop 2).dropWhile pyWS
    match headerKeys.find? (fun k => k.isPrefixOf afterHash) with
    | some k =>
        match lastNlSplitGo none (afterHash.drop k.length) with
        | some rest => some (takeBody rest)
        | none => none
    | none => none
  else none

/-- `re.findall` of the keyed pattern: leftmost non-overlapping matches,
restarting one character further on failure; the fuel is the remaining
length (each match consumes at least one character). -/
def scanHeadersGo : Nat → Str → List Str
  | 0, _ => []
  | _, [] => []
  | fuel + 1, c :: t =>
      match headerMatchAt (c :: t) with
      | some (body, rest) => body :: scanHeadersGo fuel rest
      | none => scanHeadersGo fuel t

/-- All keyed-header section bodies of the text, in order. -/
def findHeaderBlocks (text : Str) : List Str :=
  scanHeadersGo text.length text

/-- A split point of `re.split(r"\n(?=##\s+)", text)`: the characters after
the newline begin with `##` followed by one whitespace character. -/
def genSplitPoint (t : Str) : Bool :=
  match t with
  | '#' :: '#' :: c :: _ => pyWS c
  | _ => false

def genericSplitGo (acc : Str) : Str → List Str
  | [] => [acc.reverse]
  | c :: t =>
      if c = '\n' && genSplitPoint t then acc.reverse :: genericSplitGo [] t
      else genericSplitGo (c :: acc) t

/-- The generic `##` split used when no vocabulary header matches. -/
def genericSplit (text : Str) : List Str := genericSplitGo [] text

/-- `_split_by_header` (data_preparation.py lines 171-188): the stripped
keyed-section bodies when any match, otherwise the generic parts with
blank parts dropped. -/
def split_by_header (text : Str) : List Str :=
  if text.isEmpty then []
  else
    let ms := findHeaderBlocks text
    if !ms.isEmpty then ms.map stripStr
    else (genericSplit text).filterMap
      (fun p => if (stripStr p).isEmpty then none else some (stripStr p))

def chunksOfGo : Nat → Nat → Str → List Str
  | 0, _, _ => []
  | _, _, [] => []
  | fuel + 1, size, s => s.take size :: chunksOfGo fuel size (s.drop size)

/-- `_split_by_size` (data_preparation.py lines 190-197): strip, then fixed
windows of `size` characters.  (Python raises ValueError when `size = 0`;
the repository always passes `chunk_size_chars`, 800 by default.) -/
def split_by_size (text : Str) (size : Nat) : List Str :=
  if text.isEmpty then []
  else
    let t := stripStr text
    if t.length ≤ size then [t]
    else chunksOfGo t.length size t

/-- The chunk contents produced by `chunk_documents` for one parent
(data_preparation.py lines 136-169) with `use_header_split = True`: the
keyed-header split, falling back to the stripped lyrics metadata field or
to fixed windows when it yields at most one block; each emitted chunk's
page_content is `block.strip()`, and its chunk_index is its position here.
The random `chunk_id` and the copied metadata are not modelled. -/
def chunkContents (text lyricsMeta : Str) (size : Nat) : List Str :=
  let blocks := split_by_header text
  let blocks2 :=
    if blocks.length ≤ 1 then
      if !(stripStr lyricsMeta).isEmpty then [stripStr lyricsMeta]
      else split_by_size text size
    else blocks
  blocks2.map stripStr

theorem dropWhile_dropWhile (p : α → Bool) (l : List α) :
    (l.dropWhile p).dropWhile p = l.dropWhile p := by
  induction l with
  | nil => rfl
  | cons a t ih =>
    by_cases h : p a = true
    · rw [List.dropWhile_cons_of_pos h, ih]
    · rw [List.dropWhile_cons_of_neg h, List.dropWhile_cons_of_neg h]

theorem dropWhile_head_false {p : α → Bool} {l : List α} {c : α} {t : List α}
    (h : l.dropWhile p = c :: t) : p c = false := by
  induction l with
  | nil => cases h
  | cons a r ih =>
    by_cases hp : p a = true
    · rw [List.dropWhile_cons_of_pos hp] at h
      exact ih h
    · rw [List.dropWhile_cons_of_neg hp] at h
      cases h
      exact Bool.not_eq_true _ ▸ (by simpa using hp)

theorem stripStr_dropWhile (s : Str) : (stripStr s).dropWhile pyWS = stripStr s := by
  unfold stripStr
  cases hE : (s.dropWhile pyWS).reverse.dropWhile pyWS with
  | nil => rfl
  | cons c t =>
    have h1 : (c :: t : Str) <:+ (s.dropWhile pyWS).reverse :=
      hE ▸ List.dropWhile_suffix pyWS
    have h2 := List.reverse_prefix.2 h1
    rw [List.reverse_reverse] at h2
    rcases h2 with ⟨u, hu⟩
    cases hR : ((c :: t : Str)).reverse with
    | nil =>
      have hlen := congrArg List.length hR
      simp at hlen
    | cons d r =>
      have hd : pyWS d = false :=
        dropWhile_head_false (p := pyWS) (l := s)
          (show s.dropWhile pyWS = d :: (r ++ u) by rw [← hu, hR]; rfl)
      rw [List.dropWhile_cons_of_neg (by simp [hd])]

theorem stripStr_idem (s : Str) : stripStr (stripStr s) = stripStr s := by
  have h1 : stripStr (stripStr s) =
      (((stripStr s).reverse).dropWhile pyWS).reverse := by
    unfold stripStr
    rw [show ((((s.dropWhile pyWS).reverse.dropWhile pyWS).reverse : Str).dropWhile pyWS) =
        ((s.dropWhile pyWS).reverse.dropWhile pyWS).reverse from stripStr_dropWhile s]
  rw [h1]
  show ((((s.dropWhile pyWS).reverse.dropWhile pyWS).reverse.reverse).dropWhile pyWS).reverse = _
  rw [List.reverse_reverse, dropWhile_dropWhile]
  unfold stripStr
  rfl

/-- C4 (amended): a chunk that is empty after trimming can only originate
from a blank keyed-header section body or from a blank fixed-size window;
the generic `##` split drops blank parts and the lyrics fallback chunk is
the non-blank stripped lyrics field, so those two paths never emit an
empty chunk. -/
theorem chunkContents_empty_source (text lyricsMeta : Str) (size : Nat) :
    ∀ c ∈ chunkContents text lyricsMeta size, c = [] →
      (∃ b ∈ findHeaderBlocks text, stripStr b = []) ∨
      (∃ w ∈ split_by_size text size, stripStr w = []) := by
  intro c hc hce
  unfold chunkContents at hc
  rcases List.mem_map.1 hc with ⟨b, hb, hcb⟩
  subst hce
  by_cases hlen : (split_by_header text).length ≤ 1
  · rw [if_pos hlen] at hb
    by_cases hlyr : !(stripStr lyricsMeta).isEmpty
    · rw [if_pos hlyr] at hb
      rcases List.mem_singleton.1 hb with rfl
      rw [stripStr_idem] at hcb
      rw [hcb] at hlyr
      simp at hlyr
    · rw [if_neg hlyr] at hb
      exact Or.inr ⟨b, hb, hcb⟩
  · rw [if_neg hlen] at hb
    unfold split_by_header at hb hlen
    by_cases htext : text.isEmpty
    · rw [if_pos htext] at hlen
      simp at hlen
    · rw [if_neg htext] at hb hlen
      by_cases hms : !(findHeaderBlocks text).isEmpty
      · rw [if_pos hms] at hb
        rcases List.mem_map.1 hb with ⟨m, hm, hmb⟩
        refine Or.inl ⟨m, hm, ?_⟩
        rw [← hmb] at hcb
        rw [stripStr_idem] at hcb
        exact hcb
      · rw [if_neg hms] at hb
        rcases List.mem_filterMap.1 hb with ⟨p, _, hpb⟩
        by_cases hps : (stripStr p).isEmpty
        · rw [if_pos hps] at hpb
          cases hpb
        · rw [if_neg hps] at hpb
          cases hpb
          rw [stripStr_idem] at hcb
          rw [hcb] at hps
          simp at hps

/-- The counterexample text: a parent with a 歌名 section and a 歌词 section
whose body is whitespace only. -/
def c4text : Str := "## 歌名\nA\n## 歌词\n   \n".data

/-- C4 counterexample: on `c4text` the keyed-header split yields two
blocks, so the header path is taken and the blank 歌词 body becomes a chunk
whose content is empty after trimming. -/
theorem chunk_documents_empty_chunk :
    chunkContents c4text [] 800 = ["A".data, []] ∧
    ¬ (∀ c ∈ chunkContents c4text [] 800, c ≠ []) := by
  refine ⟨by decide, ?_⟩
  intro h
  exact h [] (by decide) rfl

/-- Witness for the amended C4: on `c4text` the empty chunk is traced back
to a blank keyed-header body. -/
theorem chunkContents_empty_source_witness :
    (∃ b ∈ findHeaderBlocks c4text, stripStr b = []) ∨
    (∃ w ∈ split_by_size c4text 800, stripStr w = []) :=
  chunkContents_empty_source c4text [] 800 [] (by decide) rfl
/-! ### data_preparation.py : metadata enhancement (_enhance_metadata) -/

/-- The dict keys that ever occur in a parent document's metadata during
loading and enhancement.  In Python they are string keys; since only this
fixed set occurs, they are modelled as an enumeration (each constructor
named after its Python string). -/
inductive MKey where
  | source | parent_id | doc_type | artist_from_path | title_from_filename
  | title | artist | album | year | region | type | lyrics
deriving DecidableEq, Repr

/-- A parent metadata dict in insertion order. -/
abbrev Metadata := List (MKey × Str)

/-- `m.get(k)`. -/
def mget (m : Metadata) (k : MKey) : Option Str :=
  (m.find? (fun p => decide (p.1 = k))).map Prod.snd

/-- `m.get(k, d)`. -/
def mgetD (m : Metadata) (k : MKey) (d : Str) : Str := (mget m k).getD d

/-- Python dict assignment `m[k] = v`: overwrite in place, or append. -/
def mset (m : Metadata) (k : MKey) (v : Str) : Metadata :=
  if (mget m k).isSome then m.map (fun p => if p.1 = k then (k, v) else p)
  else m ++ [(k, v)]

/-- `m.setdefault(k, v)`. -/
def msetdefault (m : Metadata) (k : MKey) (v : Str) : Metadata :=
  if (mget m k).isSome then m else m ++ [(k, v)]

/-- One iteration of the extraction loop (data_preparation.py lines
105-110): assign the key only when the pattern matched. -/
def extStep (m : Metadata) (k : MKey) (o : Option Str) : Metadata :=
  match o with
  | some v => mset m k v
  | none => m

theorem mget_append (m : Metadata) (k : MKey) (v : Str) (k2 : MKey) :
    mget (m ++ [(k, v)]) k2 =
      if (mget m k2).isSome then mget m k2
      else if k2 = k then some v else none := by
  induction m with
  | nil =>
    by_cases h : k2 = k
    · simp [mget, List.find?, h]
    · simp [mget, List.find?, h, Ne.symm h]
  | cons p t ih =>
    by_cases hp : p.1 = k2
    · simp [mget, List.find?, hp]
    · have hne : (decide (p.1 = k2)) = false := by simp [hp]
      simp only [mget, List.cons_append, List.find?, hne] at ih ⊢
      exact ih

theorem mget_cons (p : MKey × Str) (t : Metadata) (k2 : MKey) :
    mget (p :: t) k2 = if p.1 = k2 then some p.2 else mget t k2 := by
  by_cases h : p.1 = k2 <;> simp [mget, List.find?_cons, h]

theorem mget_overwrite (m : Metadata) (k : MKey) (v : Str) (k2 : MKey) :
    mget (m.map (fun p => if p.1 = k then (k, v) else p)) k2 =
      if k2 = k then (mget m k).map (fun _ => v) else mget m k2 := by
  induction m with
  | nil => by_cases h : k2 = k <;> simp [mget, h]
  | cons q t ih =>
    rw [show (q :: t).map (fun p => if p.1 = k then (k, v) else p) =
        (if q.1 = k then (k, v) else q) ::
          t.map (fun p => if p.1 = k then (k, v) else p) from rfl]
    by_cases hq : q.1 = k
    · by_cases hk2 : k2 = k
      · subst hk2
        simp [mget_cons, hq]
      · have hkk2 : ¬ (k = k2) := fun h => hk2 h.symm
        have hq2 : ¬ (q.1 = k2) := fun h => hkk2 (hq ▸ h)
        simp [mget_cons, hq, hk2, hkk2, hq2, ih]
    · by_cases hk2 : k2 = k
      · subst hk2
        simp [mget_cons, hq, ih]
      · simp only [if_neg hq, mget_cons, ih, if_neg hk2]

theorem mget_mset_self (m : Metadata) (k : MKey) (v : Str) :
    mget (mset m k v) k = some v := by
  unfold mset
  by_cases h : (mget m k).isSome
  · rw [if_pos h, mget_overwrite, if_pos rfl]
    rcases Option.isSome_iff_exists.1 h with ⟨w, hw⟩
    rw [hw]
    rfl
  · rw [if_neg h, mget_append, if_neg h, if_pos rfl]

theorem mget_mset_ne (m : Metadata) (k : MKey) (v : Str) (k2 : MKey)
    (hne : k2 ≠ k) : mget (mset m k v) k2 = mget m k2 := by
  unfold mset
  by_cases h : (mget m k).isSome
  · rw [if_pos h, mget_overwrite, if_neg hne]
  · rw [if_neg h, mget_append]
    by_cases h2 : (mget m k2).isSome
    · rw [if_pos h2]
    · rw [if_neg h2, if_neg hne, Option.not_isSome_iff_eq_none.1 h2]

theorem mget_msetdefault_self (m : Metadata) (k : MKey) (v : Str) :
    mget (msetdefault m k v) k = some ((mget m k).getD v) := by
  unfold msetdefault
  by_cases h : (mget m k).isSome
  · rw [if_pos h]
    rcases Option.isSome_iff_exists.1 h with ⟨w, hw⟩
    rw [hw]
    rfl
  · rw [if_neg h, mget_append]
    rw [if_neg h, if_pos rfl]
    rw [Option.not_isSome_iff_eq_none.1 h]
    rfl

theorem mget_msetdefault_ne (m : Metadata) (k : MKey) (v : Str) (k2 : MKey)
    (hne : k2 ≠ k) : mget (msetdefault m k v) k2 = mget m k2 := by
  unfold msetdefault
  by_cases h : (mget m k).isSome
  · rw [if_pos h]
  · rw [if_neg h, mget_append]
    by_cases h2 : (mget m k2).isSome
    · rw [if_pos h2]
    · rw [if_neg h2, if_neg hne]
      exact (Option.not_isSome_iff_eq_none.1 h2).symm

theorem mget_extStep_self (m : Metadata) (k : MKey) (o : Option Str) :
    mget (extStep m k o) k = o.or (mget m k) := by
  cases o with
  | none => rfl
  | some v => simp [extStep, mget_mset_self]

theorem mget_extStep_ne (m : Metadata) (k : MKey) (o : Option Str) (k2 : MKey)
    (hne : k2 ≠ k) : mget (extStep m k o) k2 = mget m k2 := by
  cases o with
  | none => rfl
  | some v => simp [extStep, mget_mset_ne _ _ _ _ hne]

theorem mget_nil (k : MKey) : mget [] k = none := rfl

theorem getD_self_getD (o : Option α) (d : α) : o.getD (o.getD d) = o.getD d := by
  cases o <;> rfl

/-- `_enhance_metadata` (data_preparation.py lines 85-120).  The regex
extraction of the seven `##` header fields from the page content (lines
105-110) is abstracted as the Option-valued input `extracted` (the matched
group already stripped, `none` when the field is absent from the source
text); pathlib parsing of the source path is abstracted as `pathParts`
(`Path(source).parts`) and `stem` (`Path(source).stem`).  The rest is
translated line by line; note that the `type` default on line 117 reads
the `year` entry. -/
def enhance_metadata (source pid : Str) (pathParts : List Str) (stem : Str)
    (extracted : MKey → Option Str) : Metadata :=
  let m : Metadata := [(MKey.source, source), (MKey.parent_id, pid),
    (MKey.doc_type, "parent".data)]
  let m := mset m MKey.artist_from_path
    (if 2 ≤ pathParts.length then
      ((pathParts.reverse.drop 1).head?).getD "未知歌手".data
     else "未知歌手".data)
  let m := mset m MKey.title_from_filename stem
  let m := extStep m MKey.title (extracted MKey.title)
  let m := extStep m MKey.artist (extracted MKey.artist)
  let m := extStep m MKey.album (extracted MKey.album)
  let m := extStep m MKey.year (extracted MKey.year)
  let m := extStep m MKey.region (extracted MKey.region)
  let m := extStep m MKey.type (extracted MKey.type)
  let m := extStep m MKey.lyrics (extracted MKey.lyrics)
  let m := msetdefault m MKey.title (mgetD m MKey.title_from_filename "未知标题".data)
  let m := msetdefault m MKey.artist (mgetD m MKey.artist_from_path "未知歌手".data)
  let m := msetdefault m MKey.album (mgetD m MKey.album "未知".data)
  let m := msetdefault m MKey.year (mgetD m MKey.year "未知".data)
  let m := msetdefault m MKey.region (mgetD m MKey.region "未知".data)
  let m := msetdefault m MKey.type (mgetD m MKey.year "未知".data)
  let m := msetdefault m MKey.lyrics (mgetD m MKey.lyrics [])
  m

/-- C5 (amended): after enhancement all seven keys title, artist, album,
year, region, type, lyrics are always present (no failure is possible); an
extracted field keeps its extracted value; an absent title defaults to the
filename stem, an absent artist to the second-to-last path component
(未知歌手 when the path is too short), absent album, year and region to the
sentinel 未知, absent lyrics to the empty string — and an absent type is
filled from the year value (the extracted year when present, 未知
otherwise), i.e. from a different field, not from a type sentinel. -/
theorem enhance_metadata_defaults (source pid : Str) (pathParts : List Str)
    (stem : Str) (extracted : MKey → Option Str) :
    mget (enhance_metadata source pid pathParts stem extracted) MKey.title =
      some ((extracted MKey.title).getD stem) ∧
    mget (enhance_metadata source pid pathParts stem extracted) MKey.artist =
      some ((extracted MKey.artist).getD
        (if 2 ≤ pathParts.length then
          ((pathParts.reverse.drop 1).head?).getD "未知歌手".data
         else "未知歌手".data)) ∧
    mget (enhance_metadata source pid pathParts stem extracted) MKey.album =
      some ((extracted MKey.album).getD "未知".data) ∧
    mget (enhance_metadata source pid pathParts stem extracted) MKey.year =
      some ((extracted MKey.year).getD "未知".data) ∧
    mget (enhance_metadata source pid pathParts stem extracted) MKey.region =
      some ((extracted MKey.region).getD "未知".data) ∧
    mget (enhance_metadata source pid pathParts stem extracted) MKey.type =
      some ((extracted MKey.type).getD ((extracted MKey.year).getD "未知".data)) ∧
    mget (enhance_metadata source pid pathParts stem extracted) MKey.lyrics =
      some ((extracted MKey.lyrics).getD []) := by
  refine ⟨?_, ?_, ?_, ?_, ?_, ?_, ?_⟩ <;>
    simp [enhance_metadata, mget_msetdefault_self, mget_msetdefault_ne,
      mget_extStep_self, mget_extStep_ne, mget_mset_self, mget_mset_ne,
      mget_cons, mget_nil, mgetD, getD_self_getD]

/-- An extraction result where the source text carries a release year but
no 类型 (type) section. -/
def c5ext : MKey → Option Str
  | MKey.year => some "2010".data
  | _ => none

/-- C5 counterexample: with year extracted as 2010 and type absent from the
source text, the enhanced metadata's type field is 2010 — the value of a
different field — rather than the sentinel 未知. -/
theorem enhance_metadata_type_from_year :
    mget (enhance_metadata "s".data "p".data
        ["data".data, "张悬".data, "宝贝.md".data] "宝贝".data c5ext) MKey.type =
      some "2010".data ∧
    some "2010".data ≠ some "未知".data := by
  refine ⟨?_, ?_⟩ <;> decide

/-! ### cli.py : question orchestration (ask_question) -/

/-- The external collaborators of `ask_question`, modelled as pure
functions: the route label returned by `query_router` for this question,
`query_rewritten`, `extract_subqueries`, and the two retrieval entry
points of RetrievalOptimizationModule treated as oracles returning chunk
lists. -/
structure Oracles where
  route : Str
  rewrite : Str → Str
  subq : Str → List Str
  filteredSearch : Str → Filters → Int → List CChunk
  hybridSearch : Str → Int → List CChunk

/-- The outcome of `ask_question` with `stream = False`: each generator of
GenerationIntegrationModule is represented by a constructor recording its
arguments, and the fixed no-information apology string by `noInfo`. -/
inductive Answer where
  | direct (q : Str)
  | compareAns (q : Str) (groups : List (List PDoc))
  | noInfo
  | listAns (q : Str) (docs : List PDoc)
  | basicAns (q : Str) (docs : List PDoc)
deriving DecidableEq, Repr

/-- Python truthiness of the filter dict (`if filters:`). -/
def filtersNonempty (f : Filters) : Bool :=
  f.artist.isSome || f.album.isSome || f.region.isSome ||
    f.year.isSome || f.title.isSome

/-- One sub-query retrieval (cli.py lines 167-174 and 208-214): filters are
inferred from the raw sub-query `sq`; a non-empty filter set dispatches to
`metadata_filtered_search`, otherwise `hybrid_search`, both applied to the
(possibly rewritten) sub-query `rq` with the route budget `k`. -/
def retrieveSub (parents : List PDoc) (o : Oracles) (rq sq : Str) (k : Int) :
    List CChunk :=
  let fs := extract_filters_from_query parents sq
  if filtersNonempty fs then o.filteredSearch rq fs k else o.hybridSearch rq k

/-- The flattened retrieval pool of the non-direct, non-compare branch
(cli.py lines 193-218): per sub-query, `list` uses the sub-query verbatim
while other routes rewrite it, each with budget `top_k`; the results are
concatenated. -/
def generalPool (parents : List PDoc) (cfg : RAGConfig) (o : Oracles)
    (question : Str) : List CChunk :=
  let rewritten := if o.route = "list".data then question else o.rewrite question
  (o.subq rewritten).flatMap (fun sq =>
    retrieveSub parents o (if o.route = "list".data then sq else o.rewrite sq)
      sq cfg.top_k)

/-- `ask_question` (cli.py lines 125-286) with `stream = False`: route
`direct` answers without retrieval; `compare` retrieves each sub-query
with budget `top_cmp_k`, keeps the chunk lists grouped by sub-query and
aggregates each group separately (returning before any empty check); all
other routes flatten the per-sub-query results, short-circuit to the fixed
apology when the pool is empty, and otherwise aggregate the pool once. -/
def ask_question (parents : List PDoc) (cfg : RAGConfig) (o : Oracles)
    (question : Str) : Answer :=
  if o.route = "direct".data then Answer.direct question
  else
    let rewritten := if o.route = "list".data then question else o.rewrite question
    if o.route = "compare".data then
      let groups := (o.subq rewritten).map
        (fun sq => retrieveSub parents o sq sq cfg.top_cmp_k)
      Answer.compareAns rewritten (groups.map (get_parent_documents parents))
    else
      let pool := generalPool parents cfg o question
      if pool.isEmpty then Answer.noInfo
      else if o.route = "list".data then
        Answer.listAns question (get_parent_documents parents pool)
      else Answer.basicAns question (get_parent_documents parents pool)

/-- C6 (amended): for every route label other than direct and compare
(list, general, and any unknown label, which takes the general path), an
empty retrieved pool short-circuits to the fixed no-information answer, so
no generator is invoked; the compare branch returns before that check and
always invokes the compare generator, even when every retrieval came back
empty. -/
theorem ask_question_empty_pool (parents : List PDoc) (cfg : RAGConfig)
    (o : Oracles) (question : Str) :
    (o.route ≠ "direct".data → o.route ≠ "compare".data →
      generalPool parents cfg o question = [] →
      ask_question parents cfg o question = Answer.noInfo) ∧
    (o.route = "compare".data →
      ∃ groups, ask_question parents cfg o question =
        Answer.compareAns (o.rewrite question) groups) := by
  constructor
  · intro hd hc hpool
    unfold ask_question
    rw [if_neg hd, if_neg hc, hpool]
    rfl
  · intro hc
    have hd : o.route ≠ "direct".data := by rw [hc]; decide
    have hl : ¬ (o.route = "list".data) := by rw [hc]; decide
    unfold ask_question
    rw [if_neg hd, if_pos hc, if_neg hl]
    exact ⟨_, rfl⟩

/-- A compare-routed oracle set whose every retrieval returns nothing. -/
def c6o : Oracles :=
  ⟨"compare".data, fun q => q, fun _ => ["sub".data],
   fun _ _ _ => [], fun _ _ => []⟩

/-- C6 counterexample: on the compare route with one sub-query and empty
retrieval everywhere, `ask_question` does not return the apology — it
invokes the compare generator on an empty group. -/
theorem ask_question_compare_empty_invokes_generator :
    ask_question [] defaultConfig c6o "q".data =
      Answer.compareAns "q".data [[]] ∧
    Answer.compareAns "q".data [[]] ≠ Answer.noInfo := by
  refine ⟨?_, ?_⟩ <;> decide

/-- A general-routed oracle set whose every retrieval returns nothing. -/
def c6og : Oracles :=
  ⟨"general".data, fun q => q, fun _ => ["sub".data],
   fun _ _ _ => [], fun _ _ => []⟩

/-- Witness for the amended C6: a general question with empty retrieval
yields the fixed apology. -/
theorem ask_question_empty_pool_witness :
    ask_question [] defaultConfig c6og "q".data = Answer.noInfo :=
  (ask_question_empty_pool [] defaultConfig c6og "q".data).1
    (by decide) (by decide) (by decide)

/-- C7: compare questions retrieve each sub-query with the smaller budget
`top_cmp_k` and keep results grouped by originating sub-query, each group
independently run through the parent aggregator; list and general
questions retrieve each sub-query with the standard budget `top_k`,
flatten all sub-queries' results into one pool and aggregate it once. -/
theorem ask_question_route_policy (parents : List PDoc) (cfg : RAGConfig)
    (o : Oracles) (question : Str) :
    (o.route = "compare".data →
      ask_question parents cfg o question =
        Answer.compareAns (o.rewrite question)
          ((o.subq (o.rewrite question)).map (fun sq =>
            get_parent_documents parents
              (retrieveSub parents o sq sq cfg.top_cmp_k)))) ∧
    (o.route = "list".data → generalPool parents cfg o question ≠ [] →
      ask_question parents cfg o question =
        Answer.listAns question (get_parent_documents parents
          ((o.subq question).flatMap (fun sq =>
            retrieveSub parents o sq sq cfg.top_k)))) ∧
    (o.route ≠ "direct".data → o.route ≠ "compare".data →
      o.route ≠ "list".data → generalPool parents cfg o question ≠ [] →
      ask_question parents cfg o question =
        Answer.basicAns question (get_parent_documents parents
          ((o.subq (o.rewrite question)).flatMap (fun sq =>
            retrieveSub parents o (o.rewrite sq) sq cfg.top_k)))) := by
  refine ⟨?_, ?_, ?_⟩
  · intro hc
    have hd : o.route ≠ "direct".data := by rw [hc]; decide
    have hl : ¬ (o.route = "list".data) := by rw [hc]; decide
    unfold ask_question
    rw [if_neg hd, if_pos hc, if_neg hl]
    dsimp only
    rw [List.map_map]
    rfl
  · intro hl hpool
    have hd : o.route ≠ "direct".data := by rw [hl]; decide
    have hc : ¬ (o.route = "compare".data) := by rw [hl]; decide
    have hgen : generalPool parents cfg o question =
        (o.subq question).flatMap (fun sq =>
          retrieveSub parents o sq sq cfg.top_k) := by
      unfold generalPool
      simp only [if_pos hl]
    unfold ask_question
    rw [if_neg hd, if_neg hc]
    dsimp only
    cases hgp : generalPool parents cfg o question with
    | nil => exact absurd hgp hpool
    | cons a t =>
      rw [if_neg (by simp : ¬ (((a :: t : List CChunk)).isEmpty = true))]
      have hl3 : o.route = ['l', 'i', 's', 't'] := hl
      rw [if_pos hl3]
      rw [← hgen]
      rw [hgp]
  · intro hd hc hl hpool
    have hgen : generalPool parents cfg o question =
        (o.subq (o.rewrite question)).flatMap (fun sq =>
          retrieveSub parents o (o.rewrite sq) sq cfg.top_k) := by
      unfold generalPool
      simp only [if_neg hl]
    unfold ask_question
    rw [if_neg hd, if_neg hc]
    dsimp only
    cases hgp : generalPool parents cfg o question with
    | nil => exact absurd hgp hpool
    | cons a t =>
      rw [if_neg (by simp : ¬ (((a :: t : List CChunk)).isEmpty = true))]
      have hl3 : ¬ (o.route = ['l', 'i', 's', 't']) := hl
      rw [if_neg hl3]
      rw [← hgen]
      rw [hgp]

/-- Witness for C7: the compare branch on the oracle set above retrieves
with budget `top_cmp_k` and aggregates the single group by itself. -/
theorem ask_question_route_policy_witness :
    ask_question [] defaultConfig c6o "q".data =
      Answer.compareAns (c6o.rewrite "q".data)
        ((c6o.subq (c6o.rewrite "q".data)).map (fun sq =>
          get_parent_documents []
            (retrieveSub [] c6o sq sq defaultConfig.top_cmp_k))) :=
  (ask_question_route_policy [] defaultConfig c6o "q".data).1 (by decide)

/-! ### generation_integration.py : generate_list_answer -/

/-- The numbered enumeration `f"{i+1}.{name}"` joined by newlines. -/
def numberedLines (names : List Str) : Str :=
  List.intercalate "\n".data
    (names.enum.map (fun ia => (Nat.repr (ia.1 + 1)).data ++ ".".data ++ ia.2))

/-- `song_names` (generation_integration.py lines 214-218): each title via
`doc.metadata.get('title', '未知歌曲')`, deduplicated keeping the first
occurrence. -/
def songNames (docs : List PDoc) : List Str :=
  dedupFirst (docs.map (fun d => d.title.getD "未知歌曲".data))

/-- `generate_list_answer` (generation_integration.py lines 208-226); the
`query` argument is accepted and unused, as in the source. -/
def generate_list_answer (query : Str) (docs : List PDoc) : Str :=
  if docs.isEmpty then "抱歉，没有找到相关的歌曲信息。".data
  else
    let names := songNames docs
    if names.length = 1 then "为您推荐：".data ++ names.headD []
    else if names.length ≤ 15 then
      "为您推荐以下歌曲：\n".data ++ numberedLines names
    else
      "为您推荐以下歌曲：\n".data ++ numberedLines (names.take 5) ++
        "\n\n还有其他 ".data ++ (Nat.repr (names.length - 5)).data ++
        " 首歌曲可供选择".data

/-- The titles the answer actually enumerates. -/
def enumeratedTitles (docs : List PDoc) : List Str :=
  if (songNames docs).length ≤ 15 then songNames docs
  else (songNames docs).take 5

/-- C9: an empty document list yields the fixed apology; otherwise titles
are deduplicated preserving first-occurrence order, and the answer lists
exactly the one title when it is unique, all titles when there are at most
15, and only the first 5 plus the count of the remaining (total minus 5)
when there are more — so no answer ever enumerates more than 15 titles. -/
theorem generate_list_answer_spec (query : Str) (docs : List PDoc) :
    (docs = [] →
      generate_list_answer query docs = "抱歉，没有找到相关的歌曲信息。".data) ∧
    (songNames docs).Nodup ∧
    (songNames docs).Sublist (docs.map (fun d => d.title.getD "未知歌曲".data)) ∧
    (∀ t ∈ docs.map (fun d => d.title.getD "未知歌曲".data), t ∈ songNames docs) ∧
    (enumeratedTitles docs).length ≤ 15 ∧
    (docs ≠ [] → (songNames docs).length = 1 →
      generate_list_answer query docs =
        "为您推荐：".data ++ (songNames docs).headD []) ∧
    (docs ≠ [] → 2 ≤ (songNames docs).length → (songNames docs).length ≤ 15 →
      generate_list_answer query docs =
        "为您推荐以下歌曲：\n".data ++ numberedLines (enumeratedTitles docs)) ∧
    (docs ≠ [] → 15 < (songNames docs).length →
      generate_list_answer query docs =
        "为您推荐以下歌曲：\n".data ++ numberedLines (enumeratedTitles docs) ++
          "\n\n还有其他 ".data ++ (Nat.repr ((songNames docs).length - 5)).data ++
          " 首歌曲可供选择".data) := by
  refine ⟨?_, nodup_dedupFirst _, dedupFirstAux_sublist [] _,
    ?_, ?_, ?_, ?_, ?_⟩
  · intro h
    subst h
    rfl
  · intro t ht
    exact mem_dedupFirst.2 ht
  · unfold enumeratedTitles
    by_cases h : (songNames docs).length ≤ 15
    · rw [if_pos h]
      exact h
    · rw [if_neg h, List.length_take]
      omega
  · intro hne h1
    unfold generate_list_answer
    rw [if_neg (by simpa using hne)]
    rw [if_pos h1]
  · intro hne h2 h15
    unfold generate_list_answer enumeratedTitles
    rw [if_neg (by simpa using hne)]
    rw [if_neg (by omega), if_pos h15, if_pos h15]
  · intro hne h15
    unfold generate_list_answer enumeratedTitles
    rw [if_neg (by simpa using hne)]
    rw [if_neg (by omega), if_neg (by omega), if_neg (by omega)]

/-- Three documents with two distinct titles. -/
def c9docs : List PDoc :=
  [⟨none, some "宝贝".data, none, none, none, none⟩,
   ⟨none, some "宝贝".data, none, none, none, none⟩,
   ⟨none, some "玫瑰色的你".data, none, none, none, none⟩]

/-- Witness for C9: two unique titles among three documents are all
enumerated. -/
theorem generate_list_answer_spec_witness :
    generate_list_answer "q".data c9docs =
      "为您推荐以下歌曲：\n".data ++ numberedLines (enumeratedTitles c9docs) :=
  (generate_list_answer_spec "q".data c9docs).2.2.2.2.2.2.1
    (by decide) (by decide) (by decide)
